import Mathlib

/-!
Verification development for the MD-driver specification of the
`openmm_sims` notebook.  The notebook itself only issues calls into an
external MD engine; the components those calls exercise (driver,
integrator, minimizer, constraint solver, trajectory codec, velocity
initialisation) are modelled here from the specification, while the
notebook's own call sequences (build / minimize / equilibrate / produce)
are transcribed directly from its code cells.
-/

namespace MDSpec

/-- A 3-vector of rational coordinates (positions and velocities). -/
structure Vec3 where
  x : ℚ
  y : ℚ
  z : ℚ
deriving DecidableEq, Repr

/-- Modelled from the spec: the error taxonomy of §7 (the engine code that
raises these is not part of the repository). -/
inductive MDError where
  | NumericalInstability
  | ConstraintNotConverged
  | CorruptTrajectory
  | DegenerateGeometry
deriving DecidableEq, Repr

/-- A reporter as the driver stores it: an identifier and its configured
step interval ("every N steps"). -/
structure Reporter where
  id : Nat
  interval : Nat
deriving DecidableEq, Repr

/-- Modelled from the spec: the single mutable State owned by the Simulation
Driver (§3): positions, velocities, step counter, simulation time, and the
list of active reporters.  The engine's `Simulation` object holding this
state is not part of the repository. -/
structure DriverState where
  positions : List Vec3
  velocities : List Vec3
  stepCount : Nat
  timeFs : ℚ
  reporters : List Reporter
deriving DecidableEq, Repr

/-- Modelled from the spec: one integration step of the driver loop (§4.4).
`integ` is the physics update delegated to the Integrator (external code);
the driver increments the step counter, advances the clock by the timestep
`dt`, and invokes every reporter whose interval divides the new step count.
The returned list logs each invocation as (reporter, step count at
invocation). -/
def stepOnce (dt : ℚ) (integ : List Vec3 × List Vec3 → List Vec3 × List Vec3)
    (s : DriverState) : DriverState × List (Reporter × Nat) :=
  let pv := integ (s.positions, s.velocities)
  let n := s.stepCount + 1
  let fired := s.reporters.filter (fun r => n % r.interval == 0)
  ({ s with positions := pv.1, velocities := pv.2, stepCount := n,
            timeFs := s.timeFs + dt },
   fired.map (fun r => (r, n)))

/-- Modelled from the spec: `step(K)` of the driver — `K` successive
integration steps, concatenating the reporter-invocation logs. -/
def stepN (dt : ℚ) (integ : List Vec3 × List Vec3 → List Vec3 × List Vec3) :
    Nat → DriverState → DriverState × List (Reporter × Nat)
  | 0, s => (s, [])
  | k + 1, s =>
    let r1 := stepOnce dt integ s
    let r2 := stepN dt integ k r1.1
    (r2.1, r1.2 ++ r2.2)

theorem stepOnce_stepCount (dt integ s) :
    (stepOnce dt integ s).1.stepCount = s.stepCount + 1 := rfl

theorem stepOnce_reporters (dt integ s) :
    (stepOnce dt integ s).1.reporters = s.reporters := rfl

theorem stepOnce_timeFs (dt integ s) :
    (stepOnce dt integ s).1.timeFs = s.timeFs + dt := rfl

theorem stepN_stepCount (dt integ) :
    ∀ (k : Nat) (s : DriverState),
      (stepN dt integ k s).1.stepCount = s.stepCount + k := by
  intro k
  induction k with
  | zero => intro s; rfl
  | succ n ih =>
    intro s
    show (stepN dt integ n (stepOnce dt integ s).1).1.stepCount = _
    rw [ih, stepOnce_stepCount]
    omega

theorem stepN_reporters (dt integ) :
    ∀ (k : Nat) (s : DriverState),
      (stepN dt integ k s).1.reporters = s.reporters := by
  intro k
  induction k with
  | zero => intro s; rfl
  | succ n ih =>
    intro s
    show (stepN dt integ n (stepOnce dt integ s).1).1.reporters = _
    rw [ih, stepOnce_reporters]

theorem stepN_timeFs (dt integ) :
    ∀ (k : Nat) (s : DriverState),
      (stepN dt integ k s).1.timeFs = s.timeFs + dt * k := by
  intro k
  induction k with
  | zero => intro s; simp [stepN]
  | succ n ih =>
    intro s
    show (stepN dt integ n (stepOnce dt integ s).1).1.timeFs = _
    rw [ih, stepOnce_timeFs]
    push_cast
    ring

/-- Membership in one step's invocation log: a reporter fires at step `n`
exactly when it is installed and `n mod` its interval is zero. -/
theorem mem_stepOnce_log (dt integ s r m) :
    (r, m) ∈ (stepOnce dt integ s).2 ↔
      r ∈ s.reporters ∧ m = s.stepCount + 1 ∧ m % r.interval = 0 := by
  simp only [stepOnce, List.mem_map, List.mem_filter, Prod.mk.injEq, beq_iff_eq]
  constructor
  · rintro ⟨r0, ⟨hmem, hdiv⟩, he1, he2⟩
    subst he1
    exact ⟨hmem, he2.symm, he2 ▸ hdiv⟩
  · rintro ⟨hmem, he, hmod⟩
    subst he
    exact ⟨r, ⟨hmem, hmod⟩, rfl, rfl⟩

/-- Membership in the invocation log of `step(K)`: a reporter fires exactly
at the step counts in `(stepCount, stepCount + K]` where `m mod` its
interval is zero. -/
theorem mem_stepN_log (dt integ) (r : Reporter) :
    ∀ (k : Nat) (s : DriverState) (m : Nat),
      (r, m) ∈ (stepN dt integ k s).2 ↔
        r ∈ s.reporters ∧ s.stepCount < m ∧ m ≤ s.stepCount + k ∧
          m % r.interval = 0 := by
  intro k
  induction k with
  | zero =>
    intro s m
    simp [stepN]
    omega
  | succ n ih =>
    intro s m
    show (r, m) ∈ (stepOnce dt integ s).2 ++ (stepN dt integ n (stepOnce dt integ s).1).2 ↔ _
    rw [List.mem_append, ih, mem_stepOnce_log dt integ s r m,
      stepOnce_stepCount, stepOnce_reporters]
    constructor
    · rintro (⟨hmem, he, hd⟩ | ⟨hmem, h1, h2, hd⟩)
      · exact ⟨hmem, by omega, by omega, hd⟩
      · exact ⟨hmem, by omega, by omega, hd⟩
    · rintro ⟨hmem, h1, h2, hd⟩
      by_cases he : m = s.stepCount + 1
      · exact Or.inl ⟨hmem, he, hd⟩
      · exact Or.inr ⟨hmem, by omega, by omega, hd⟩

/-- C4: for every reporter with positive configured interval `N` installed
on the driver, during a `step(K)` run the reporter is invoked exactly at
those integration steps whose resulting step count is a multiple of `N`,
and at no other step. -/
theorem reporter_fires_iff_interval_divides
    (dt : ℚ) (integ : List Vec3 × List Vec3 → List Vec3 × List Vec3)
    (r : Reporter) (k : Nat) (s : DriverState) (m : Nat)
    (hpos : 0 < r.interval) (hmem : r ∈ s.reporters) :
    (r, m) ∈ (stepN dt integ k s).2 ↔
      (s.stepCount < m ∧ m ≤ s.stepCount + k ∧ r.interval ∣ m) := by
  rw [mem_stepN_log dt integ r k s m]
  constructor
  · rintro ⟨_, h1, h2, hmod⟩
    exact ⟨h1, h2, Nat.dvd_of_mod_eq_zero hmod⟩
  · rintro ⟨h1, h2, hdvd⟩
    exact ⟨hmem, h1, h2, Nat.dvd_iff_mod_eq_zero.1 hdvd⟩

/-- Witness for C4 at a concrete run: one reporter of interval 2 over 5
steps from step count 0 fires exactly at steps 2 and 4. -/
theorem reporter_fires_iff_interval_divides_witness :
    ((⟨0, 2⟩ : Reporter), 4) ∈
        (stepN 2 id 5 ⟨[], [], 0, 0, [⟨0, 2⟩]⟩).2 ∧
      ¬ ((⟨0, 2⟩ : Reporter), 3) ∈
        (stepN 2 id 5 ⟨[], [], 0, 0, [⟨0, 2⟩]⟩).2 := by
  constructor
  · exact (reporter_fires_iff_interval_divides 2 id ⟨0, 2⟩ 5
      ⟨[], [], 0, 0, [⟨0, 2⟩]⟩ 4 (by decide) (by decide)).2 (by decide)
  · intro h
    exact absurd ((reporter_fires_iff_interval_divides 2 id ⟨0, 2⟩ 5
      ⟨[], [], 0, 0, [⟨0, 2⟩]⟩ 3 (by decide) (by decide)).1 h) (by decide)

/-- C6: the step counter is a non-negative integer (its type is `Nat`) that
`step(K)` advances by exactly `K` — hence it never decreases across any
sequence of step calls — and the driver clock keeps simulation time equal
to the step count times the configured timestep (2 fs in the notebook). -/
theorem stepCount_monotone_time_eq_step_times_dt
    (dt : ℚ) (integ : List Vec3 × List Vec3 → List Vec3 × List Vec3)
    (k : Nat) (s : DriverState) (hinv : s.timeFs = dt * s.stepCount) :
    (stepN dt integ k s).1.stepCount = s.stepCount + k ∧
      s.stepCount ≤ (stepN dt integ k s).1.stepCount ∧
      (stepN dt integ k s).1.timeFs =
        dt * ((stepN dt integ k s).1.stepCount : ℚ) := by
  refine ⟨stepN_stepCount dt integ k s, ?_, ?_⟩
  · rw [stepN_stepCount]; omega
  · rw [stepN_timeFs, stepN_stepCount, hinv]
    push_cast
    ring

/-- Witness for C6 at a concrete run: 3 steps of 2 fs from a fresh state. -/
theorem stepCount_monotone_time_eq_step_times_dt_witness :
    (stepN 2 id 3 ⟨[], [], 0, 0, []⟩).1.stepCount = 0 + 3 ∧
      0 ≤ (stepN 2 id 3 ⟨[], [], 0, 0, []⟩).1.stepCount ∧
      (stepN 2 id 3 ⟨[], [], 0, 0, []⟩).1.timeFs =
        2 * ((stepN 2 id 3 ⟨[], [], 0, 0, []⟩).1.stepCount : ℚ) := by
  have h := stepCount_monotone_time_eq_step_times_dt 2 id 3
    ⟨[], [], 0, 0, []⟩ (by simp)
  simpa using h

/-- C9: a reporter whose interval (5000) exceeds the number of steps taken
while it is installed (the notebook's butane equilibration: 2500 steps from
step count 0) is never invoked: the invocation log is empty. -/
theorem reporter_interval_exceeds_run_never_fires
    (integ : List Vec3 × List Vec3 → List Vec3 × List Vec3)
    (p v : List Vec3) (rid : Nat) :
    (stepN 2 integ 2500 ⟨p, v, 0, 0, [⟨rid, 5000⟩]⟩).2 = [] := by
  rw [List.eq_nil_iff_forall_not_mem]
  rintro ⟨r, m⟩ hmem
  rcases (mem_stepN_log 2 integ r 2500 ⟨p, v, 0, 0, [⟨rid, 5000⟩]⟩ m).1 hmem
    with ⟨hr, h1, h2, hmod⟩
  have h1' : 0 < m := h1
  have h2' : m ≤ 2500 := h2
  have hri : r.interval = 5000 := by
    simp only [List.mem_singleton] at hr
    rw [hr]
  rw [hri, Nat.mod_eq_of_lt (by omega : m < 5000)] at hmod
  omega

/-! ### Minimizer (§4.3), modelled from the spec -/

/-- How a minimization run ended: force norm under tolerance, or the
iteration cap was reached.  Both are success exits per §4.3. -/
inductive ExitReason where
  | converged
  | maxIterationsReached
deriving DecidableEq, Repr

/-- Result of a minimization run: the optimized positions and the exit
reason. -/
structure MinResult where
  positions : List Vec3
  exitKind : ExitReason
deriving DecidableEq, Repr

/-- Modelled from the spec: the line-search acceptance rule of §4.3 — trial
steps are tried in order (largest first), a trial that would increase the
potential energy is rejected and retried with a smaller step, and if every
trial increases the energy the current positions are kept. The energy
oracle `E` stands for the Force Evaluator, which is external code. -/
def acceptStep (E : List Vec3 → ℚ) (p : List Vec3) :
    List (List Vec3) → List Vec3
  | [] => p
  | q :: qs => if E q ≤ E p then q else acceptStep E p qs

/-- Modelled from the spec: the bounded-descent minimization loop of §4.3.
`E` is the potential-energy oracle, `fnorm` the force-norm oracle,
`propose` produces the line-search trial positions for one iteration, and
the fuel is the `maxIterations` bound.  Exhausting the iteration budget is
an ordinary exit, not an error, so the `Except` error branch is never
taken. -/
def minimizeLoop (E : List Vec3 → ℚ) (fnorm : List Vec3 → ℚ)
    (propose : List Vec3 → List (List Vec3)) (tol : ℚ) :
    Nat → List Vec3 → Except MDError MinResult
  | 0, p => .ok ⟨p, .maxIterationsReached⟩
  | fuel + 1, p =>
    if fnorm p ≤ tol then .ok ⟨p, .converged⟩
    else minimizeLoop E fnorm propose tol fuel (acceptStep E p (propose p))

/-- The line-search acceptance rule never increases the energy. -/
theorem acceptStep_le (E : List Vec3 → ℚ) (p : List Vec3) :
    ∀ l : List (List Vec3), E (acceptStep E p l) ≤ E p := by
  intro l
  induction l with
  | nil => exact le_refl _
  | cons q qs ih =>
    show E (if E q ≤ E p then q else acceptStep E p qs) ≤ E p
    by_cases h : E q ≤ E p
    · rw [if_pos h]; exact h
    · rw [if_neg h]; exact ih

/-- Shared characterization of the minimization loop: it always returns
`ok`, the returned energy never exceeds the input energy, and a
`converged` exit means the force norm is under tolerance. -/
theorem minimizeLoop_spec (E fnorm : List Vec3 → ℚ)
    (propose : List Vec3 → List (List Vec3)) (tol : ℚ) :
    ∀ (fuel : Nat) (p : List Vec3), ∃ r : MinResult,
      minimizeLoop E fnorm propose tol fuel p = .ok r ∧
        E r.positions ≤ E p ∧
        (r.exitKind = .converged → fnorm r.positions ≤ tol) := by
  intro fuel
  induction fuel with
  | zero =>
    intro p
    exact ⟨⟨p, .maxIterationsReached⟩, rfl, le_refl _, by intro h; cases h⟩
  | succ n ih =>
    intro p
    by_cases h : fnorm p ≤ tol
    · exact ⟨⟨p, .converged⟩, by simp [minimizeLoop, h], le_refl _,
        fun _ => h⟩
    · rcases ih (acceptStep E p (propose p)) with ⟨r, hok, hle, hconv⟩
      exact ⟨r, by simp [minimizeLoop, h, hok],
        le_trans hle (acceptStep_le E p (propose p)), hconv⟩

/-- C1: for every energy oracle induced by a topology and every starting
position vector, the minimize operation (`minimizeLoop` with a
`maxIterations` fuel bound) returns positions whose potential energy is at
most the potential energy of the input positions. -/
theorem minimize_energy_nonincreasing (E fnorm : List Vec3 → ℚ)
    (propose : List Vec3 → List (List Vec3)) (tol : ℚ)
    (maxIterations : Nat) (p : List Vec3) :
    ∃ r : MinResult,
      minimizeLoop E fnorm propose tol maxIterations p = .ok r ∧
        E r.positions ≤ E p := by
  rcases minimizeLoop_spec E fnorm propose tol maxIterations p with
    ⟨r, hok, hle, _⟩
  exact ⟨r, hok, hle⟩

/-- C8: the minimize operation never fails — it always returns `ok`, the
exit is either convergence (force norm under tolerance) or the
`maxIterations` bound, and reaching the bound is a success, not an error. -/
theorem minimize_never_fails (E fnorm : List Vec3 → ℚ)
    (propose : List Vec3 → List (List Vec3)) (tol : ℚ)
    (maxIterations : Nat) (p : List Vec3) :
    (∃ r : MinResult,
        minimizeLoop E fnorm propose tol maxIterations p = .ok r ∧
          (r.exitKind = .converged ∨ r.exitKind = .maxIterationsReached) ∧
          (r.exitKind = .converged → fnorm r.positions ≤ tol)) ∧
      ∀ e : MDError,
        minimizeLoop E fnorm propose tol maxIterations p ≠ .error e := by
  rcases minimizeLoop_spec E fnorm propose tol maxIterations p with
    ⟨r, hok, _, hconv⟩
  refine ⟨⟨r, hok, ?_, hconv⟩, ?_⟩
  · cases r.exitKind with
    | converged => exact Or.inl rfl
    | maxIterationsReached => exact Or.inr rfl
  · intro e he
    rw [hok] at he
    cases he

/-- Witness for C8 at a concrete run: a constant-energy system with the
force norm above tolerance for the whole run — the iteration cap is hit
and the minimizer still returns `ok`. -/
theorem minimize_never_fails_witness :
    (∃ r : MinResult,
        minimizeLoop (fun _ => 0) (fun _ => 1) (fun _ => []) 0 3 [] =
            .ok r ∧
          (r.exitKind = .converged ∨ r.exitKind = .maxIterationsReached) ∧
          (r.exitKind = .converged → (fun _ => (1 : ℚ)) r.positions ≤ 0)) ∧
      ∀ e : MDError,
        minimizeLoop (fun _ => 0) (fun _ => 1) (fun _ => []) 0 3 [] ≠
          .error e :=
  minimize_never_fails (fun _ => 0) (fun _ => 1) (fun _ => []) 0 3 []

/-- The positions component of a minimization run (the `error` branch is
unreachable by `minimize_never_fails`; it falls back to the input). -/
def minimizedPositions (E fnorm : List Vec3 → ℚ)
    (propose : List Vec3 → List (List Vec3)) (tol : ℚ)
    (maxIterations : Nat) (p : List Vec3) : List Vec3 :=
  match minimizeLoop E fnorm propose tol maxIterations p with
  | .ok r => r.positions
  | .error _ => p

/-- Modelled from the spec: `minimizeEnergy` as the driver applies it —
local optimization over the positions only; the rest of the driver state
is untouched (§3: State is mutated only by Integrator/Minimizer calls, and
the Minimizer optimizes positions). -/
def minimizeEnergyOp (E fnorm : List Vec3 → ℚ)
    (propose : List Vec3 → List (List Vec3)) (tol : ℚ)
    (maxIterations : Nat) (s : DriverState) : DriverState :=
  { s with positions :=
      minimizedPositions E fnorm propose tol maxIterations s.positions }

/-- Modelled from the spec: `getState(getEnergy=True)` — the potential
energy the engine reports is the Force Evaluator applied to the current
positions. -/
def getPotentialEnergy (E : List Vec3 → ℚ) (s : DriverState) : ℚ :=
  E s.positions

/-- C10: `minimizeEnergy` mutates only the position component of the
simulation state — velocities, step counter, simulation time (and the
reporter list) are unchanged — and the potential energy subsequently
reported by `getState` is the energy of the new positions. -/
theorem minimizeEnergy_frame_effect (E fnorm : List Vec3 → ℚ)
    (propose : List Vec3 → List (List Vec3)) (tol : ℚ)
    (maxIterations : Nat) (s : DriverState) :
    (minimizeEnergyOp E fnorm propose tol maxIterations s).velocities =
        s.velocities ∧
      (minimizeEnergyOp E fnorm propose tol maxIterations s).stepCount =
        s.stepCount ∧
      (minimizeEnergyOp E fnorm propose tol maxIterations s).timeFs =
        s.timeFs ∧
      (minimizeEnergyOp E fnorm propose tol maxIterations s).reporters =
        s.reporters ∧
      getPotentialEnergy E (minimizeEnergyOp E fnorm propose tol maxIterations s) =
        E (minimizedPositions E fnorm propose tol maxIterations s.positions) := by
  exact ⟨rfl, rfl, rfl, rfl, rfl⟩

/-! ### Constraint solver and integrator step (§4.2), modelled from the
spec.  The notebook enables hydrogen-bond constraints
(`constraints=app.HBonds`) and sets the constraint tolerance to `1e-5`. -/

/-- A holonomic bond-length constraint: the two atom indices and the
equilibrium length the bond is fixed at. -/
structure ConstrainedBond where
  a : Nat
  b : Nat
  r0 : ℚ
deriving DecidableEq, Repr

/-- Squared Euclidean distance between atoms `i` and `j` of a position
list (out-of-range indices read as the origin). -/
def dist2 (p : List Vec3) (i j : Nat) : ℚ :=
  let u := p.getD i ⟨0, 0, 0⟩
  let w := p.getD j ⟨0, 0, 0⟩
  (u.x - w.x) ^ 2 + (u.y - w.y) ^ 2 + (u.z - w.z) ^ 2

/-- The constrained bond's length equals its equilibrium length within
tolerance `tol`, stated on squared lengths to stay rational:
`(r0 - tol)² ≤ |ri - rj|² ≤ (r0 + tol)²`, which for `0 ≤ tol ≤ r0` is
equivalent to `|‖ri - rj‖ - r0| ≤ tol`. -/
def bondWithinTol (tol : ℚ) (p : List Vec3) (c : ConstrainedBond) : Bool :=
  decide ((c.r0 - tol) ^ 2 ≤ dist2 p c.a c.b) &&
    decide (dist2 p c.a c.b ≤ (c.r0 + tol) ^ 2)

/-- All constrained bonds are at their equilibrium length within
tolerance. -/
def allWithinTol (tol : ℚ) (bonds : List ConstrainedBond)
    (p : List Vec3) : Bool :=
  bonds.all (bondWithinTol tol p)

/-- Modelled from the spec: the iterative constraint projection of §4.2
step 4 — apply the relaxation update `project` (the numerical update rule
is external code, e.g. successive constraint relaxation) until every
constrained bond is within tolerance, failing with
`ConstraintNotConverged` when the iteration budget is exhausted before
tolerance is reached. -/
def constraintProject (project : List Vec3 → List Vec3) (tol : ℚ)
    (bonds : List ConstrainedBond) :
    Nat → List Vec3 → Except MDError (List Vec3)
  | 0, p =>
    if allWithinTol tol bonds p then .ok p
    else .error .ConstraintNotConverged
  | budget + 1, p =>
    if allWithinTol tol bonds p then .ok p
    else constraintProject project tol bonds budget (project p)

/-- Modelled from the spec: one integrator step with constraints (§4.2) —
the unconstrained physics update `physics` (force evaluation, friction and
noise terms: external code) followed by projection of the positions back
onto the constraint manifold, then the step-counter/clock update. -/
def integratorStep (dt : ℚ)
    (physics : List Vec3 × List Vec3 → List Vec3 × List Vec3)
    (project : List Vec3 → List Vec3) (tol : ℚ)
    (bonds : List ConstrainedBond) (budget : Nat)
    (s : DriverState) : Except MDError DriverState :=
  match constraintProject project tol bonds budget
      (physics (s.positions, s.velocities)).1 with
  | .ok q =>
    .ok { s with positions := q,
                 velocities := (physics (s.positions, s.velocities)).2,
                 stepCount := s.stepCount + 1,
                 timeFs := s.timeFs + dt }
  | .error e => .error e

/-- Successful constraint projection leaves every constrained bond within
tolerance, and the only error it can produce is `ConstraintNotConverged`. -/
theorem constraintProject_spec (project : List Vec3 → List Vec3) (tol : ℚ)
    (bonds : List ConstrainedBond) :
    ∀ (budget : Nat) (p : List Vec3),
      (∀ q, constraintProject project tol bonds budget p = .ok q →
          allWithinTol tol bonds q = true) ∧
        (∀ e, constraintProject project tol bonds budget p = .error e →
          e = .ConstraintNotConverged) := by
  intro budget
  induction budget with
  | zero =>
    intro p
    constructor
    · intro q hq
      by_cases h : allWithinTol tol bonds p
      · simp only [constraintProject, if_pos h] at hq
        cases hq
        exact h
      · simp only [constraintProject, if_neg h] at hq
        cases hq
    · intro e he
      by_cases h : allWithinTol tol bonds p
      · simp only [constraintProject, if_pos h] at he
        cases he
      · simp only [constraintProject, if_neg h] at he
        cases he
        rfl
  | succ n ih =>
    intro p
    constructor
    · intro q hq
      by_cases h : allWithinTol tol bonds p
      · simp only [constraintProject, if_pos h] at hq
        cases hq
        exact h
      · simp only [constraintProject, if_neg h] at hq
        exact (ih (project p)).1 q hq
    · intro e he
      by_cases h : allWithinTol tol bonds p
      · simp only [constraintProject, if_pos h] at he
        cases he
      · simp only [constraintProject, if_neg h] at he
        exact (ih (project p)).2 e he

/-- C3: after any integrator step that completes on a system with
constrained bonds, every constrained bond's length equals its equilibrium
length within the configured tolerance; and if the iterative projection
exhausts its iteration budget without reaching tolerance, the step fails
with `ConstraintNotConverged` instead of returning violated constraints. -/
theorem integratorStep_constraints (dt : ℚ)
    (physics : List Vec3 × List Vec3 → List Vec3 × List Vec3)
    (project : List Vec3 → List Vec3) (tol : ℚ)
    (bonds : List ConstrainedBond) (budget : Nat) (s : DriverState) :
    (∀ t, integratorStep dt physics project tol bonds budget s = .ok t →
        ∀ c ∈ bonds, bondWithinTol tol t.positions c = true) ∧
      (∀ e, integratorStep dt physics project tol bonds budget s = .error e →
        e = .ConstraintNotConverged) := by
  constructor
  · intro t ht c hc
    unfold integratorStep at ht
    cases hcp : constraintProject project tol bonds budget
        (physics (s.positions, s.velocities)).1 with
    | error e => rw [hcp] at ht; cases ht
    | ok q =>
      rw [hcp] at ht
      cases ht
      have hall := (constraintProject_spec project tol bonds budget
        (physics (s.positions, s.velocities)).1).1 q hcp
      simp only [allWithinTol, List.all_eq_true] at hall
      exact hall c hc
  · intro e he
    unfold integratorStep at he
    cases hcp : constraintProject project tol bonds budget
        (physics (s.positions, s.velocities)).1 with
    | error e0 =>
      rw [hcp] at he
      cases he
      exact (constraintProject_spec project tol bonds budget
        (physics (s.positions, s.velocities)).1).2 e hcp
    | ok q => rw [hcp] at he; cases he

/-- Witness for C3 at a concrete step: a two-atom system with one bond
constrained at length 1, tolerance 1/10, identity physics and projection,
starting at distance 1 — the step returns `ok` and the constrained bond is
within tolerance. -/
theorem integratorStep_constraints_witness :
    bondWithinTol (1 / 10)
        (({ positions := [⟨0, 0, 0⟩, ⟨1, 0, 0⟩], velocities := [],
            stepCount := 1, timeFs := 2, reporters := [] } :
          DriverState)).positions ⟨0, 1, 1⟩ = true :=
  (integratorStep_constraints 2 id id (1 / 10)
      [⟨0, 1, 1⟩] 0 ⟨[⟨0, 0, 0⟩, ⟨1, 0, 0⟩], [], 0, 0, []⟩).1
    ⟨[⟨0, 0, 0⟩, ⟨1, 0, 0⟩], [], 1, 2, []⟩
    (by norm_num [integratorStep, constraintProject, allWithinTol,
      bondWithinTol, dist2])
    ⟨0, 1, 1⟩ (List.mem_singleton.2 rfl)

/-! ### The notebook's driver call sequences (C2).  These are transcribed
from the source cells: the ethane run (cells 7–28) and the butane run
(cell 32). -/

/-- The driver phases of §4.4, in their intended order. -/
inductive Phase where
  | Built
  | Minimized
  | Equilibrated
  | Produced
deriving DecidableEq, Repr

/-- Numeric rank of a phase in the `Built → Minimized → Equilibrated →
Produced` order. -/
def phaseRank : Phase → Nat
  | .Built => 0
  | .Minimized => 1
  | .Equilibrated => 2
  | .Produced => 3

/-- The driver-level events a notebook cell issues on the simulation. -/
inductive SimEvent where
  | loadPDB
  | loadForceField
  | createSystem
  | createIntegrator
  | setConstraintTolerance
  | createSimulation
  | setPositions
  | getState
  | minimizeEnergyCall (maxIterations : Nat)
  | appendStateDataReporter (interval : Nat)
  | appendDCDReporter (interval : Nat)
  | setVelocitiesToTemperatureCall
  | clearReporters
  | stepCall (n : Nat)
deriving DecidableEq, Repr

/-- The ethane run of the notebook, each event tagged with the phase of the
simulation during which it is issued (the notebook's Initialization /
Minimization / Equilibration / Production sections). -/
def ethaneScript : List (Phase × SimEvent) :=
  [(.Built, .loadPDB), (.Built, .loadForceField), (.Built, .createSystem),
   (.Built, .createIntegrator), (.Built, .setConstraintTolerance),
   (.Built, .createSimulation), (.Built, .setPositions),
   (.Minimized, .getState), (.Minimized, .minimizeEnergyCall 100),
   (.Minimized, .getState),
   (.Equilibrated, .appendStateDataReporter 100),
   (.Equilibrated, .setVelocitiesToTemperatureCall),
   (.Equilibrated, .stepCall 2500),
   (.Produced, .clearReporters),
   (.Produced, .appendStateDataReporter 250000),
   (.Produced, .appendDCDReporter 100),
   (.Produced, .stepCall 1000000)]

/-- The butane run of the notebook (the "Your Turn" cell), tagged the same
way. -/
def butaneScript : List (Phase × SimEvent) :=
  [(.Built, .loadPDB), (.Built, .loadForceField), (.Built, .createSystem),
   (.Built, .createIntegrator), (.Built, .setConstraintTolerance),
   (.Built, .createSimulation), (.Built, .setPositions),
   (.Minimized, .getState), (.Minimized, .minimizeEnergyCall 100),
   (.Minimized, .getState),
   (.Equilibrated, .appendStateDataReporter 5000),
   (.Equilibrated, .setVelocitiesToTemperatureCall),
   (.Equilibrated, .stepCall 2500),
   (.Produced, .clearReporters),
   (.Produced, .appendStateDataReporter 500000),
   (.Produced, .appendDCDReporter 100),
   (.Produced, .stepCall 20000000)]

/-- True when an event installs a reporter. -/
def isReporterInstall : SimEvent → Bool
  | .appendStateDataReporter _ => true
  | .appendDCDReporter _ => true
  | _ => false

/-- Scan of a production segment: every reporter install must come after a
wholesale `clearReporters`; the flag records whether a clear has been
seen. -/
def swapScan : Bool → List SimEvent → Bool
  | _, [] => true
  | cleared, e :: es =>
    match e with
    | .clearReporters => swapScan true es
    | .appendStateDataReporter _ => cleared && swapScan cleared es
    | .appendDCDReporter _ => cleared && swapScan cleared es
    | _ => swapScan cleared es

/-- The phase rank never decreases between consecutive events of a
script: no phase is re-entered once its successor has begun. -/
def ranksMonotone : List (Phase × SimEvent) → Bool
  | [] => true
  | [_] => true
  | a :: b :: rest =>
    decide (phaseRank a.1 ≤ phaseRank b.1) && ranksMonotone (b :: rest)

/-- The events a script issues during a given phase. -/
def phaseEvents (ph : Phase) (script : List (Phase × SimEvent)) :
    List SimEvent :=
  (script.filter (fun pe => pe.1 == ph)).map Prod.snd

/-- C2: in both notebook runs the phases occur in the fixed order
Built, Minimized, Equilibrated, Produced and never re-enter an earlier
phase (the phase rank is monotone along the event sequence); the
equilibration reporters are cleared wholesale before any production
reporter is installed; and the clear is an explicit event issued by the
caller's script. -/
theorem phases_monotone_reporters_swapped_by_caller :
    (ranksMonotone ethaneScript = true ∧
        swapScan false (phaseEvents .Produced ethaneScript) = true ∧
        (Phase.Produced, SimEvent.clearReporters) ∈ ethaneScript) ∧
      (ranksMonotone butaneScript = true ∧
        swapScan false (phaseEvents .Produced butaneScript) = true ∧
        (Phase.Produced, SimEvent.clearReporters) ∈ butaneScript) := by
  decide

/-! ### Trajectory store binary codec (§4.5, §6), modelled from the spec.
Coordinates are float32 in the file; a float32 is stored exactly as its
32-bit pattern, so the codec is modelled on the 32-bit patterns (values
`< 2^32`) and "equal within float32 precision" is equality of the stored
patterns. -/

/-- One recorded frame: the step index and the flat list of coordinate
words (3 per atom, each a float32 bit pattern). -/
structure TrajFrame where
  step : Nat
  coords : List Nat
deriving DecidableEq, Repr

/-- Modelled from the spec: the binary record of one frame —
`{step: uint64, atomCount duplicate check: uint32, positions: 3A × float32}`,
each field truncated to its width. -/
def encodeFrame (atomCount : Nat) (f : TrajFrame) : List Nat :=
  (f.step % 2 ^ 64) :: (atomCount % 2 ^ 32) :: f.coords.map (fun c => c % 2 ^ 32)

/-- The concatenated frame records of the write path. -/
def encodeFrames (atomCount : Nat) : List TrajFrame → List Nat
  | [] => []
  | f :: fs => encodeFrame atomCount f ++ encodeFrames atomCount fs

/-- Modelled from the spec: the write path — header
`{atomCount: uint32, frameFlags: uint32}` followed by the appended frame
records. -/
def encodeTraj (atomCount flags : Nat) (frames : List TrajFrame) : List Nat :=
  (atomCount % 2 ^ 32) :: (flags % 2 ^ 32) :: encodeFrames atomCount frames

/-- Frame decoding loop (fuel-indexed so it is structurally recursive; the
fuel is set to the stream length, which always suffices because every
record consumes at least two words).  A record whose duplicate atom count
disagrees with the header, or a stream that truncates mid-record, fails
with `CorruptTrajectory`. -/
def decodeFramesAux (atomCount : Nat) :
    Nat → List Nat → Except MDError (List TrajFrame)
  | _, [] => .ok []
  | 0, _ :: _ => .error .CorruptTrajectory
  | _ + 1, [_] => .error .CorruptTrajectory
  | fuel + 1, st :: a :: rest =>
    if a = atomCount then
      if 3 * atomCount ≤ rest.length then
        match decodeFramesAux atomCount fuel (rest.drop (3 * atomCount)) with
        | .ok fs => .ok (⟨st, rest.take (3 * atomCount)⟩ :: fs)
        | .error e => .error e
      else .error .CorruptTrajectory
    else .error .CorruptTrajectory

/-- Modelled from the spec: the read path — load the header, then decode
the frame records sequentially, validating each record against the
header's atom count. -/
def decodeTraj : List Nat → Except MDError (Nat × Nat × List TrajFrame)
  | atomCount :: flags :: rest =>
    match decodeFramesAux atomCount rest.length rest with
    | .ok fs => .ok (atomCount, flags, fs)
    | .error e => .error e
  | _ => .error .CorruptTrajectory

/-- A well-formed write for atom count `A`: every frame's step fits in 64
bits, it has exactly `3 A` coordinate words, and each fits in 32 bits. -/
def framesWF (atomCount : Nat) (frames : List TrajFrame) : Prop :=
  ∀ f ∈ frames, f.step < 2 ^ 64 ∧ f.coords.length = 3 * atomCount ∧
    ∀ c ∈ f.coords, c < 2 ^ 32

theorem encodeFrames_length_ge (atomCount : Nat) :
    ∀ frames : List TrajFrame,
      (encodeFrames atomCount frames).length =
        frames.length * 2 + (frames.map (fun f => f.coords.length)).sum := by
  intro frames
  induction frames with
  | nil => rfl
  | cons f fs ih =>
    show (encodeFrame atomCount f ++ encodeFrames atomCount fs).length = _
    rw [List.length_append, ih]
    show (f.step % 2 ^ 64 :: (atomCount % 2 ^ 32) ::
      f.coords.map (fun c => c % 2 ^ 32)).length + _ = _
    simp [List.length_map]
    ring

/-- Decoding inverts encoding frame by frame, for any sufficient fuel. -/
theorem decodeFramesAux_encodeFrames (atomCount : Nat)
    (hA : atomCount < 2 ^ 32) :
    ∀ (frames : List TrajFrame) (fuel : Nat),
      framesWF atomCount frames →
      (encodeFrames atomCount frames).length ≤ fuel →
      decodeFramesAux atomCount fuel (encodeFrames atomCount frames) =
        .ok frames := by
  intro frames
  induction frames with
  | nil =>
    intro fuel _ _
    cases fuel <;> rfl
  | cons f fs ih =>
    intro fuel hwf hfuel
    rcases hwf f (List.mem_cons_self f fs) with ⟨hstep, hlen, hcoords⟩
    have hmap : f.coords.map (fun c => c % 2 ^ 32) = f.coords := by
      rw [List.map_congr_left (fun c hc => Nat.mod_eq_of_lt (hcoords c hc))]
      simp
    have henc : encodeFrames atomCount (f :: fs) =
        f.step :: atomCount :: (f.coords ++ encodeFrames atomCount fs) := by
      show encodeFrame atomCount f ++ _ = _
      rw [encodeFrame, hmap, Nat.mod_eq_of_lt hstep, Nat.mod_eq_of_lt hA]
      rfl
    rw [henc] at hfuel ⊢
    have hlen2 : 2 + (f.coords ++ encodeFrames atomCount fs).length ≤ fuel := by
      simp at hfuel
      simp
      omega
    rcases fuel with _ | fuel
    · omega
    · show decodeFramesAux atomCount (fuel + 1)
        (f.step :: atomCount :: (f.coords ++ encodeFrames atomCount fs)) = _
      rw [decodeFramesAux]
      rw [if_pos rfl, if_pos (by
        rw [List.length_append, hlen]
        omega)]
      have hdrop : (f.coords ++ encodeFrames atomCount fs).drop
          (3 * atomCount) = encodeFrames atomCount fs := by
        rw [← hlen, List.drop_left]
      have htake : (f.coords ++ encodeFrames atomCount fs).take
          (3 * atomCount) = f.coords := by
        rw [← hlen, List.take_left]
      rw [hdrop, htake,
        ih fuel (fun g hg => hwf g (List.mem_cons_of_mem f hg)) (by
          rw [List.length_append] at hlen2
          omega)]

/-- C5: trajectory round-trip — writing any number of frames for an atom
count `A` through the trajectory store (header plus appended records) and
reading the stream back yields exactly the written frames: the same frame
count, `3 A` coordinate words per frame, and positions equal to the
written ones (stored float32 patterns are recovered exactly). -/
theorem trajectory_roundtrip (atomCount flags : Nat)
    (frames : List TrajFrame) (hA : atomCount < 2 ^ 32)
    (hflags : flags < 2 ^ 32) (hwf : framesWF atomCount frames) :
    decodeTraj (encodeTraj atomCount flags frames) =
        .ok (atomCount, flags, frames) ∧
      ∀ f ∈ frames, f.coords.length = 3 * atomCount := by
  constructor
  · have henc : encodeTraj atomCount flags frames =
        atomCount :: flags :: encodeFrames atomCount frames := by
      rw [encodeTraj, Nat.mod_eq_of_lt hA, Nat.mod_eq_of_lt hflags]
    rw [henc, decodeTraj,
      decodeFramesAux_encodeFrames atomCount hA frames
        (encodeFrames atomCount frames).length hwf (le_refl _)]
  · intro f hf
    exact (hwf f hf).2.1

/-- Witness for C5: two frames of one atom round-trip exactly. -/
theorem trajectory_roundtrip_witness :
    decodeTraj (encodeTraj 1 0 [⟨5, [1, 2, 3]⟩, ⟨6, [4, 5, 6]⟩]) =
        .ok (1, 0, [⟨5, [1, 2, 3]⟩, ⟨6, [4, 5, 6]⟩]) ∧
      ∀ f ∈ ([⟨5, [1, 2, 3]⟩, ⟨6, [4, 5, 6]⟩] : List TrajFrame),
        f.coords.length = 3 * 1 :=
  trajectory_roundtrip 1 0 [⟨5, [1, 2, 3]⟩, ⟨6, [4, 5, 6]⟩]
    (by decide) (by decide) (by simp only [framesWF]; decide)

/-! ### Initial-velocity assignment (§4.2), modelled from the spec.
`setVelocitiesToTemperature` draws per-atom velocities from the
Maxwell–Boltzmann distribution at the target temperature — the draw is
the injected, seedable generator of §4.2, supplied here as the explicit
`draws` argument — and then rescales all velocities globally so the
instantaneous kinetic-energy-derived temperature exactly equals the
target. -/

/-- Squared norm of a real velocity 3-vector. -/
noncomputable def normSq (v : ℝ × ℝ × ℝ) : ℝ :=
  v.1 ^ 2 + v.2.1 ^ 2 + v.2.2 ^ 2

/-- Mass-weighted sum of squared speeds (twice the kinetic energy). -/
noncomputable def weightedSq : List ℝ → List (ℝ × ℝ × ℝ) → ℝ
  | m :: ms, v :: vs => m * normSq v + weightedSq ms vs
  | _, _ => 0

/-- Kinetic energy `½ Σ m ‖v‖²`. -/
noncomputable def kineticEnergy (masses : List ℝ) (vels : List (ℝ × ℝ × ℝ)) : ℝ :=
  weightedSq masses vels / 2

/-- Instantaneous kinetic-energy-derived temperature:
`2 E_kin / (k_B · n_dof)` with `n_dof = 3 n`. -/
noncomputable def instTemperature (kB : ℝ) (masses : List ℝ)
    (vels : List (ℝ × ℝ × ℝ)) : ℝ :=
  2 * kineticEnergy masses vels / (kB * (3 * vels.length))

/-- Scale one velocity vector by a factor. -/
noncomputable def scaleVel (c : ℝ) (v : ℝ × ℝ × ℝ) : ℝ × ℝ × ℝ :=
  (c * v.1, c * v.2.1, c * v.2.2)

/-- Modelled from the spec: `setVelocitiesToTemperature(T)` — take the
Maxwell–Boltzmann draws and rescale all of them by the global factor
`√(T / T_inst)` so the resulting instantaneous temperature is exactly the
target. -/
noncomputable def setVelocitiesToTemperature (kB T : ℝ) (masses : List ℝ)
    (draws : List (ℝ × ℝ × ℝ)) : List (ℝ × ℝ × ℝ) :=
  draws.map (scaleVel (Real.sqrt (T / instTemperature kB masses draws)))

theorem weightedSq_nil_right (masses : List ℝ) :
    weightedSq masses [] = 0 := by
  cases masses <;> rfl

theorem weightedSq_map_scale (c : ℝ) :
    ∀ (masses : List ℝ) (vels : List (ℝ × ℝ × ℝ)),
      weightedSq masses (vels.map (scaleVel c)) =
        c ^ 2 * weightedSq masses vels := by
  intro masses
  induction masses with
  | nil =>
    intro vels
    show (0 : ℝ) = c ^ 2 * 0
    ring
  | cons m ms ih =>
    intro vels
    cases vels with
    | nil =>
      show (0 : ℝ) = c ^ 2 * 0
      ring
    | cons v vs =>
      show m * normSq (scaleVel c v) + weightedSq ms (vs.map (scaleVel c)) = _
      rw [ih vs]
      show m * ((c * v.1) ^ 2 + (c * v.2.1) ^ 2 + (c * v.2.2) ^ 2) + _ = _
      show _ = c ^ 2 * (m * (v.1 ^ 2 + v.2.1 ^ 2 + v.2.2 ^ 2) + weightedSq ms vs)
      ring

/-- C7: the set-initial-velocities operation takes the per-atom
Maxwell–Boltzmann draws and rescales all velocities globally so that the
instantaneous kinetic-energy-derived temperature of the resulting state
exactly equals the target temperature `T`. -/
theorem setVelocitiesToTemperature_exact (kB T : ℝ) (masses : List ℝ)
    (draws : List (ℝ × ℝ × ℝ)) (hkB : 0 < kB) (hT : 0 ≤ T)
    (hKE : 0 < weightedSq masses draws) :
    instTemperature kB masses
        (setVelocitiesToTemperature kB T masses draws) = T := by
  have hne : draws ≠ [] := by
    intro h
    rw [h, weightedSq_nil_right] at hKE
    exact lt_irrefl 0 hKE
  have hn : 0 < (draws.length : ℝ) := by
    have := List.length_pos.2 hne
    exact_mod_cast this
  have hD : 0 < kB * (3 * (draws.length : ℝ)) := by nlinarith
  have hTival : instTemperature kB masses draws =
      weightedSq masses draws / (kB * (3 * (draws.length : ℝ))) := by
    rw [instTemperature, kineticEnergy]
    ring
  have hTi : 0 < instTemperature kB masses draws := by
    rw [hTival]
    exact div_pos hKE hD
  have hsq : Real.sqrt (T / instTemperature kB masses draws) ^ 2 =
      T / instTemperature kB masses draws :=
    Real.sq_sqrt (div_nonneg hT (le_of_lt hTi))
  rw [setVelocitiesToTemperature, instTemperature, kineticEnergy,
    weightedSq_map_scale, List.length_map, hsq, hTival]
  have hW : weightedSq masses draws ≠ 0 := ne_of_gt hKE
  have hDne : kB * (3 * (draws.length : ℝ)) ≠ 0 := ne_of_gt hD
  field_simp

/-- Witness for C7 at a concrete draw: one atom of mass 1 drawn at
velocity (1,0,0), target temperature 2, k_B = 1 — the rescaled state's
instantaneous temperature is exactly 2. -/
theorem setVelocitiesToTemperature_exact_witness :
    instTemperature 1 [1] (setVelocitiesToTemperature 1 2 [1] [(1, 0, 0)]) = 2 :=
  setVelocitiesToTemperature_exact 1 2 [1] [(1, 0, 0)]
    (by norm_num) (by norm_num)
    (by norm_num [weightedSq, weightedSq_nil_right, normSq])

end MDSpec
